import Mathlib

/-!
Shallow embedding of the crossword CSP solver in this repository:
`src/crossword.py` (classes `Variable`, `Crossword`) and `src/generate.py`
(class `CrosswordGenerator`).  Python sets and dicts are embedded as lists
and association lists; mutation of `self.domains` is embedded as explicit
state passing; Python runtime faults (unpacking a `None` overlap, indexing
a string out of range) are embedded as `Option` failure; the two
worklist/recursion loops are embedded with explicit fuel, together with a
proved bound on the fuel they need.
-/

inductive Direction where
  | across
  | down
deriving DecidableEq, Repr

abbrev Word := List Char

/-- `Variable` from src/crossword.py: a word slot with starting cell,
direction and length. -/
structure Variable where
  i : Nat
  j : Nat
  direction : Direction
  length : Nat
deriving DecidableEq, Repr

/-- `self.cells` of `Variable.__init__`: the ordered list of cells occupied. -/
def Variable.cells (v : Variable) : List (Nat × Nat) :=
  (List.range v.length).map (fun k =>
    (v.i + (if v.direction = Direction.down then k else 0),
     v.j + (if v.direction = Direction.across then k else 0)))

/-- The in-memory `Crossword` data: grid dimensions, the boolean fillable
mask (`self.structure`) and the vocabulary (`self.words`, embedded as a
list).  File parsing is out of scope; the mask is taken as given. -/
structure Crossword where
  height : Nat
  width : Nat
  struct : List (List Bool)
  words : List Word
deriving DecidableEq, Repr

/-- `self.structure[i][j]` (out-of-range reads as not fillable; the source
only indexes in range). -/
def Crossword.fill (cw : Crossword) (i j : Nat) : Bool :=
  (cw.struct.getD i []).getD j false

/-- The `length` computed by the vertical-word loop of `Crossword.__init__`:
one plus the number of consecutive fillable cells strictly below `(i, j)`. -/
def Crossword.runLenDown (cw : Crossword) (i j : Nat) : Nat :=
  1 + ((List.range' (i + 1) (cw.height - (i + 1))).takeWhile (fun k => cw.fill k j)).length

/-- The `length` computed by the horizontal-word loop of
`Crossword.__init__`. -/
def Crossword.runLenAcross (cw : Crossword) (i j : Nat) : Nat :=
  1 + ((List.range' (j + 1) (cw.width - (j + 1))).takeWhile (fun k => cw.fill i k)).length

/-- The vertical-word branch of the variable-discovery loop: the (at most
one) DOWN slot added at cell `(i, j)`. -/
def Crossword.downSlotAt (cw : Crossword) (i j : Nat) : List Variable :=
  if cw.fill i j && (i == 0 || !cw.fill (i - 1) j) then
    if 1 < cw.runLenDown i j then
      [⟨i, j, Direction.down, cw.runLenDown i j⟩]
    else []
  else []

/-- The horizontal-word branch of the variable-discovery loop. -/
def Crossword.acrossSlotAt (cw : Crossword) (i j : Nat) : List Variable :=
  if cw.fill i j && (j == 0 || !cw.fill i (j - 1)) then
    if 1 < cw.runLenAcross i j then
      [⟨i, j, Direction.across, cw.runLenAcross i j⟩]
    else []
  else []

/-- `self.variables` of `Crossword.__init__` (the Python set embedded as a
list in scan order). -/
def Crossword.variables (cw : Crossword) : List Variable :=
  (List.range cw.height).flatMap (fun i =>
    (List.range cw.width).flatMap (fun j =>
      cw.downSlotAt i j ++ cw.acrossSlotAt i j))

/-- `self.overlaps[v1, v2]` of `Crossword.__init__`: `none` stands both for
a stored `None` and for an absent key (`v1 == v2` or a slot outside the
variable set); unpacking either raises in Python.  The single shared cell is
taken as the head of the computed intersection. -/
def Crossword.overlapPair (cw : Crossword) (v1 v2 : Variable) : Option (Nat × Nat) :=
  if v1 ∈ cw.variables ∧ v2 ∈ cw.variables ∧ v1 ≠ v2 then
    match v1.cells.filter (fun c => decide (c ∈ v2.cells)) with
    | [] => none
    | c :: _ => some (v1.cells.indexOf c, v2.cells.indexOf c)
  else none

/-- `Crossword.neighbors`: every other variable whose overlap entry against
`var` is non-`None`. -/
def Crossword.neighbors (cw : Crossword) (var : Variable) : List Variable :=
  cw.variables.filter (fun v => v != var && (cw.overlapPair v var).isSome)

/-! ## CrosswordGenerator (src/generate.py)

`self.domains` (a dict from variables to word sets) is embedded as an
association list; `assignment` dicts likewise. -/

abbrev Domains := List (Variable × List Word)
abbrev Assignment := List (Variable × Word)

/-- Dict read `d[v]` (returns `[]` on an absent key; the source only reads
keys that are present). -/
def domGet (d : Domains) (v : Variable) : List Word :=
  match d with
  | [] => []
  | p :: rest => if p.1 = v then p.2 else domGet rest v

/-- Dict write `d[v] = ws` (a no-op on an absent key; the source only
overwrites present keys). -/
def domSet (d : Domains) (v : Variable) (ws : List Word) : Domains :=
  match d with
  | [] => []
  | p :: rest => if p.1 = v then (v, ws) :: rest else p :: domSet rest v ws

/-- Dict membership/read on an assignment (`var in assignment`,
`assignment[var]`). -/
def alookup (a : Assignment) (v : Variable) : Option Word :=
  match a with
  | [] => none
  | p :: rest => if p.1 = v then some p.2 else alookup rest v

/-- `CrosswordGenerator.__init__`: one full vocabulary copy per variable. -/
def initial_domains (cw : Crossword) : Domains :=
  cw.variables.map (fun v => (v, cw.words))

/-- `CrosswordGenerator.ensure_node_consistency`: remove from every domain
the words whose length differs from the variable's length. -/
def ensure_node_consistency (d : Domains) : Domains :=
  d.map (fun p => (p.1, p.2.filter (fun w => w.length == p.1.length)))

/-- The survival test of `revise_domains`' removal loop: candidate `wx`
is kept iff some `wy` in the domain of `y` matches it at the overlap
indices `(i, j)`. -/
def reviseKeep (dy : List Word) (i j : Nat) (wx : Word) : Bool :=
  dy.any (fun wy => wx.getD i 'A' == wy.getD j 'A')

/-- `CrosswordGenerator.revise_domains`.  Returns `none` where the Python
raises: unpacking the overlap entry when it is `None` or absent, or
indexing a word out of range (which happens as soon as both domains are
nonempty and some word is too short for its overlap index).  Otherwise the
net effect of the removal loop is the `reviseKeep` filter, and `revised`
reports whether anything was removed. -/
def revise_domains (cw : Crossword) (d : Domains) (x y : Variable) :
    Option (Bool × Domains) :=
  match cw.overlapPair x y with
  | none => none
  | some (i, j) =>
    if !(domGet d x).isEmpty && !(domGet d y).isEmpty &&
        ((domGet d x).any (fun wx => wx.length ≤ i) ||
         (domGet d y).any (fun wy => wy.length ≤ j)) then
      none
    else
      some (((domGet d x).filter (reviseKeep (domGet d y) i j)).length
              != (domGet d x).length,
            domSet d x ((domGet d x).filter (reviseKeep (domGet d y) i j)))

/-- `CrosswordGenerator.apply_ac3`, with an explicit fuel for the worklist
loop (a proved bound on the number of iterations is given below).  The
Python list used LIFO (`pop` from / `append` to the same end) is embedded
with the head as the working end.  Results: `none` = fuel exhausted
(proved unreachable for the fuel used), `some none` = a Python runtime
fault inside `revise_domains`, `some (some (ok, d))` = the returned
boolean and the final domains. -/
def apply_ac3 (cw : Crossword) :
    Nat → List (Variable × Variable) → Domains → Option (Option (Bool × Domains))
  | 0, _, _ => none
  | _ + 1, [], d => some (some (true, d))
  | fuel + 1, (x, y) :: rest, d =>
    match revise_domains cw d x y with
    | none => some none
    | some (revised, d2) =>
      if revised then
        if (domGet d2 x).isEmpty then some (some (false, d2))
        else
          apply_ac3 cw fuel
            ((((cw.neighbors x).filter (fun z => z != y)).map (fun z => (z, x))) ++ rest) d2
      else apply_ac3 cw fuel rest d2

/-- The default worklist built when `apply_ac3` is called with
`arcs=None`: all `(x, y)` with `x` a domain key and `y` a neighbor of
`x`. -/
def initial_arcs (cw : Crossword) (d : Domains) : List (Variable × Variable) :=
  (d.map Prod.fst).flatMap (fun x => (cw.neighbors x).map (fun y => (x, y)))

/-- Total number of candidate words over all domain entries. -/
def totalSize (d : Domains) : Nat :=
  (d.map (fun p => p.2.length)).sum

/-- Fuel that provably suffices for `apply_ac3`'s worklist loop. -/
def ac3_fuel (cw : Crossword) (arcs : List (Variable × Variable)) (d : Domains) : Nat :=
  arcs.length + (cw.variables.length + 1) * totalSize d + 1

/-- `CrosswordGenerator.is_assignment_complete`. -/
def is_assignment_complete (cw : Crossword) (a : Assignment) : Bool :=
  cw.variables.length == a.length

/-- `CrosswordGenerator.is_consistent`: all assigned words pairwise
distinct, each of its variable's length, and agreeing with every assigned
neighbor at the overlap indices.  (The overlap entry of an assigned
neighbor is never `None`, so the `none` branch below is inert.) -/
def is_consistent (cw : Crossword) (a : Assignment) : Bool :=
  decide ((a.map Prod.snd).Nodup) &&
  a.all (fun p =>
    p.2.length == p.1.length &&
    (cw.neighbors p.1).all (fun nb =>
      match alookup a nb with
      | none => true
      | some wn =>
        match cw.overlapPair p.1 nb with
        | none => true
        | some (i, j) => p.2.getD i 'A' == wn.getD j 'A'))

/-- Stable insertion step: place `w` after every element whose key is at
most `w`'s key. -/
def insertByCount (n : Word → Nat) : List Word → Word → List Word
  | [], w => [w]
  | x :: xs, w => if n x ≤ n w then x :: insertByCount n xs w else w :: x :: xs

/-- Stable ascending sort by key (embeds Python's stable `sorted`). -/
def sortByCount (n : Word → Nat) (l : List Word) : List Word :=
  l.foldl (insertByCount n) []

/-- `CrosswordGenerator.order_values`: for each candidate of `var`, count
the unassigned neighbors whose domain contains that very candidate, and
sort the candidates by that count (stably, as Python's `sorted`). -/
def order_values (cw : Crossword) (d : Domains) (a : Assignment) (var : Variable) :
    List Word :=
  sortByCount
    (fun w => (((cw.neighbors var).filter (fun nb => (alookup a nb).isNone)).filter
      (fun nb => (domGet d nb).contains w)).length)
    (domGet d var)

/-- `CrosswordGenerator.select_variable`: fold over the unassigned
variables, replacing the current best whenever the candidate has a
strictly smaller domain OR a strictly larger neighbor count. -/
def select_variable (cw : Crossword) (d : Domains) (a : Assignment) : Option Variable :=
  (cw.variables.filter (fun v => (alookup a v).isNone)).foldl
    (fun best var =>
      match best with
      | none => some var
      | some b =>
        if (domGet d var).length < (domGet d b).length
            || (cw.neighbors b).length < (cw.neighbors var).length
        then some var else some b)
    none

/-- `CrosswordGenerator.perform_backtracking`, with fuel for the recursion
depth (each recursive call extends the assignment by one entry; the
top-level call passes more fuel than there are variables).  The candidate
loop over `self.domains[var]` with its first-success return is embedded as
a short-circuiting fold. -/
def perform_backtracking (cw : Crossword) (d : Domains) : Nat → Assignment → Option Assignment
  | 0, _ => none
  | fuel + 1, a =>
    if is_assignment_complete cw a then some a
    else
      match select_variable cw d a with
      | none => none
      | some var =>
        (domGet d var).foldl
          (fun acc w =>
            match acc with
            | some r => some r
            | none =>
              let a2 := (var, w) :: a
              if is_consistent cw a2 then perform_backtracking cw d fuel a2 else none)
          none

/-- `CrosswordGenerator.find_solution`: node consistency, then `apply_ac3`
with its return value discarded, then backtracking from the empty
assignment.  Outer `none` = a Python runtime fault (or fuel exhaustion,
both proved unreachable); `some none` = "no solution". -/
def find_solution (cw : Crossword) : Option (Option Assignment) :=
  let d1 := ensure_node_consistency (initial_domains cw)
  let arcs := initial_arcs cw d1
  match apply_ac3 cw (ac3_fuel cw arcs d1) arcs d1 with
  | none => none
  | some none => none
  | some (some (_, d2)) => some (perform_backtracking cw d2 (cw.variables.length + 1) [])

/-- Modelled from the spec (§4.4 step 3, for comparison with the source's
`order_values`): the least-constraining-value count of candidate `w` for
slot `var` — the number of words in still-unassigned neighbors' domains
that conflict with `w` at the shared-cell index pair. -/
def lcv_elimination_count (cw : Crossword) (d : Domains) (a : Assignment)
    (var : Variable) (w : Word) : Nat :=
  ((((cw.neighbors var).filter (fun nb => (alookup a nb).isNone)).map (fun nb =>
    match cw.overlapPair var nb with
    | none => 0
    | some (i, j) =>
      ((domGet d nb).filter (fun wn => !(w.getD i 'A' == wn.getD j 'A'))).length)).sum)

/-! ## Association-list lemmas -/

theorem domGet_domSet_ne {d : Domains} {x v : Variable} {ws : List Word}
    (h : v ≠ x) : domGet (domSet d x ws) v = domGet d v := by
  induction d with
  | nil => rfl
  | cons p rest ih =>
    by_cases hp : p.1 = x
    · simp only [domSet, if_pos hp, domGet]
      rw [if_neg (by exact fun hvx => h hvx.symm), if_neg (by rw [hp]; exact fun hvx => h hvx.symm)]
    · simp only [domSet, if_neg hp, domGet]
      by_cases hpv : p.1 = v
      · rw [if_pos hpv, if_pos hpv]
      · rw [if_neg hpv, if_neg hpv, ih]

theorem domGet_domSet_self {d : Domains} {x : Variable} {ws : List Word}
    (h : x ∈ d.map Prod.fst) : domGet (domSet d x ws) x = ws := by
  induction d with
  | nil => simp at h
  | cons p rest ih =>
    by_cases hp : p.1 = x
    · simp [domSet, if_pos hp, domGet]
    · simp only [List.map_cons, List.mem_cons] at h
      rcases h with h | h
      · exact absurd h.symm hp
      · simp only [domSet, if_neg hp, domGet, if_neg hp]
        exact ih h

theorem domSet_get_eq (d : Domains) (x : Variable) :
    domSet d x (domGet d x) = d := by
  induction d with
  | nil => rfl
  | cons p rest ih =>
    by_cases hp : p.1 = x
    · simp only [domSet, domGet, if_pos hp]
      rw [show ((x, p.2) : Variable × List Word) = p from by
        cases p with | mk a b => simp_all]
    · simp only [domSet, domGet, if_neg hp, ih]

theorem domSet_of_not_mem {d : Domains} {x : Variable} {ws : List Word}
    (h : x ∉ d.map Prod.fst) : domSet d x ws = d := by
  induction d with
  | nil => rfl
  | cons p rest ih =>
    simp only [List.map_cons, List.mem_cons] at h
    push_neg at h
    have hne : p.1 ≠ x := fun hc => h.1 hc.symm
    simp only [domSet, if_neg hne]
    rw [ih h.2]

theorem mem_keys_of_domGet_ne_nil {d : Domains} {x : Variable}
    (h : domGet d x ≠ []) : x ∈ d.map Prod.fst := by
  induction d with
  | nil => exact absurd rfl h
  | cons p rest ih =>
    by_cases hp : p.1 = x
    · simp [hp]
    · simp only [domGet, if_neg hp] at h
      simp [ih h]

theorem totalSize_domSet_lt {d : Domains} {x : Variable} {ws : List Word}
    (hne : domGet d x ≠ []) (hlt : ws.length < (domGet d x).length) :
    totalSize (domSet d x ws) < totalSize d := by
  induction d with
  | nil => exact absurd rfl hne
  | cons p rest ih =>
    by_cases hp : p.1 = x
    · simp only [domGet, if_pos hp] at hlt
      simp only [domSet, if_pos hp, totalSize, List.map_cons, List.sum_cons]
      omega
    · simp only [domGet, if_neg hp] at hne hlt
      have := ih hne hlt
      simp only [domSet, if_neg hp, totalSize, List.map_cons, List.sum_cons]
      simp only [totalSize] at this
      omega

theorem domGet_sub_of_domSet_filter {d : Domains} {x v : Variable} {p : Word → Bool} :
    ∀ w ∈ domGet (domSet d x ((domGet d x).filter p)) v, w ∈ domGet d v := by
  intro w hw
  by_cases hvx : v = x
  · subst hvx
    by_cases hk : v ∈ d.map Prod.fst
    · rw [domGet_domSet_self hk] at hw
      exact List.mem_of_mem_filter hw
    · rwa [domSet_of_not_mem hk] at hw
  · rwa [domGet_domSet_ne hvx] at hw

/-! ## `revise_domains` inversion -/

theorem revise_domains_inv {cw : Crossword} {d : Domains} {x y : Variable}
    {r : Bool} {d2 : Domains}
    (h : revise_domains cw d x y = some (r, d2)) :
    ∃ i j, cw.overlapPair x y = some (i, j) ∧
      d2 = domSet d x ((domGet d x).filter (reviseKeep (domGet d y) i j)) ∧
      (r = true ↔
        ((domGet d x).filter (reviseKeep (domGet d y) i j)).length ≠ (domGet d x).length) := by
  cases hov : cw.overlapPair x y with
  | none => simp [revise_domains, hov] at h
  | some ij =>
    obtain ⟨i, j⟩ := ij
    simp only [revise_domains, hov] at h
    split at h
    · exact absurd h (by simp)
    · injection h with h2
      rw [Prod.mk.injEq] at h2
      obtain ⟨hr, hd⟩ := h2
      refine ⟨i, j, rfl, hd.symm, ?_⟩
      constructor
      · intro hrt; rw [hrt] at hr
        simpa [bne_iff_ne] using hr
      · intro hne
        rw [← hr]
        simpa [bne_iff_ne] using hne

theorem revise_domains_false_eq {cw : Crossword} {d : Domains} {x y : Variable}
    {d2 : Domains} (h : revise_domains cw d x y = some (false, d2)) : d2 = d := by
  obtain ⟨i, j, _, hd2, hiff⟩ := revise_domains_inv h
  have hlen : ((domGet d x).filter (reviseKeep (domGet d y) i j)).length = (domGet d x).length := by
    by_contra hne
    exact absurd (hiff.mpr hne) (by simp)
  have heq : (domGet d x).filter (reviseKeep (domGet d y) i j) = domGet d x :=
    (List.filter_sublist _).eq_of_length hlen
  rw [hd2, heq, domSet_get_eq]

theorem revise_domains_true_lt {cw : Crossword} {d : Domains} {x y : Variable}
    {d2 : Domains} (h : revise_domains cw d x y = some (true, d2)) :
    totalSize d2 < totalSize d := by
  obtain ⟨i, j, _, hd2, hiff⟩ := revise_domains_inv h
  have hne := hiff.mp rfl
  have hle : ((domGet d x).filter (reviseKeep (domGet d y) i j)).length ≤ (domGet d x).length :=
    (List.filter_sublist _).length_le
  have hlt : ((domGet d x).filter (reviseKeep (domGet d y) i j)).length < (domGet d x).length :=
    lt_of_le_of_ne hle hne
  have hnil : domGet d x ≠ [] := by
    intro hnil
    rw [hnil] at hlt
    simp at hlt
  rw [hd2]
  exact totalSize_domSet_lt hnil hlt

/-! ## `apply_ac3`: termination bound and outcome characterization -/

theorem neighbors_length_le (cw : Crossword) (x : Variable) :
    (cw.neighbors x).length ≤ cw.variables.length :=
  List.length_filter_le _ _

/-- Definitional unfolding of one worklist step. -/
theorem apply_ac3_cons (cw : Crossword) (fuel : Nat) (x y : Variable)
    (rest : List (Variable × Variable)) (d : Domains) :
    apply_ac3 cw (fuel + 1) ((x, y) :: rest) d =
      match revise_domains cw d x y with
      | none => some none
      | some (revised, d2) =>
        if revised then
          if (domGet d2 x).isEmpty then some (some (false, d2))
          else
            apply_ac3 cw fuel
              ((((cw.neighbors x).filter (fun z => z != y)).map (fun z => (z, x))) ++ rest) d2
        else apply_ac3 cw fuel rest d2 := rfl

theorem apply_ac3_isSome (cw : Crossword) :
    ∀ (fuel : Nat) (arcs : List (Variable × Variable)) (d : Domains),
      arcs.length + (cw.variables.length + 1) * totalSize d < fuel →
      (apply_ac3 cw fuel arcs d).isSome := by
  intro fuel
  induction fuel with
  | zero => intro arcs d h; omega
  | succ n ih =>
    intro arcs d h
    match arcs with
    | [] => simp [apply_ac3]
    | (x, y) :: rest =>
      cases hrev : revise_domains cw d x y with
      | none => simp [apply_ac3_cons, hrev]
      | some p =>
        obtain ⟨revised, d2⟩ := p
        cases revised with
        | false =>
          have hd2 : d2 = d := revise_domains_false_eq hrev
          simp only [apply_ac3_cons, hrev, Bool.false_eq_true, if_false]
          apply ih
          subst hd2
          simp only [List.length_cons] at h
          omega
        | true =>
          simp only [apply_ac3_cons, hrev, if_true]
          by_cases hemp : (domGet d2 x).isEmpty = true
          · simp [hemp]
          · simp only [hemp, if_false]
            apply ih
            have hlt : totalSize d2 < totalSize d := revise_domains_true_lt hrev
            have h1 : ((cw.neighbors x).filter (fun z => z != y)).length ≤
                (cw.neighbors x).length := List.length_filter_le _ _
            have h2 := neighbors_length_le cw x
            rw [List.length_append, List.length_map]
            simp only [List.length_cons] at h
            have hV : (cw.variables.length + 1) * totalSize d2 + (cw.variables.length + 1) ≤
                (cw.variables.length + 1) * totalSize d := by
              calc (cw.variables.length + 1) * totalSize d2 + (cw.variables.length + 1)
                  = (cw.variables.length + 1) * (totalSize d2 + 1) := by ring
                _ ≤ (cw.variables.length + 1) * totalSize d :=
                    Nat.mul_le_mul_left _ hlt
            omega

theorem apply_ac3_true_no_emptied {cw : Crossword} :
    ∀ (fuel : Nat) (arcs : List (Variable × Variable)) (d dr : Domains),
      apply_ac3 cw fuel arcs d = some (some (true, dr)) →
      ∀ v, domGet dr v = [] → domGet d v = [] := by
  intro fuel
  induction fuel with
  | zero => intro arcs d dr h; simp [apply_ac3] at h
  | succ n ih =>
    intro arcs d dr h
    match arcs with
    | [] =>
      simp only [apply_ac3, Option.some.injEq, Prod.mk.injEq, true_and] at h
      rw [h]
      exact fun v hv => hv
    | (x, y) :: rest =>
      rw [apply_ac3_cons] at h
      cases hrev : revise_domains cw d x y with
      | none => rw [hrev] at h; simp at h
      | some p =>
        obtain ⟨revised, d2⟩ := p
        rw [hrev] at h
        cases revised with
        | false =>
          have hd2 : d2 = d := revise_domains_false_eq hrev
          simp only [Bool.false_eq_true, if_false] at h
          subst hd2
          exact ih rest d2 dr h
        | true =>
          simp only [if_true] at h
          by_cases hemp : (domGet d2 x).isEmpty = true
          · rw [if_pos hemp] at h; simp at h
          · rw [if_neg hemp] at h
            intro v hv
            obtain ⟨i, j, hov, hd2, _⟩ := revise_domains_inv hrev
            have hv2 := ih _ d2 dr h v hv
            by_cases hvx : v = x
            · subst hvx
              rw [hv2] at hemp
              simp at hemp
            · rw [hd2] at hv2
              rwa [domGet_domSet_ne hvx] at hv2

theorem apply_ac3_false_emptied {cw : Crossword} :
    ∀ (fuel : Nat) (arcs : List (Variable × Variable)) (d dr : Domains),
      apply_ac3 cw fuel arcs d = some (some (false, dr)) →
      ∃ v, domGet d v ≠ [] ∧ domGet dr v = [] := by
  intro fuel
  induction fuel with
  | zero => intro arcs d dr h; simp [apply_ac3] at h
  | succ n ih =>
    intro arcs d dr h
    match arcs with
    | [] => simp [apply_ac3] at h
    | (x, y) :: rest =>
      rw [apply_ac3_cons] at h
      cases hrev : revise_domains cw d x y with
      | none => rw [hrev] at h; simp at h
      | some p =>
        obtain ⟨revised, d2⟩ := p
        rw [hrev] at h
        cases revised with
        | false =>
          have hd2 : d2 = d := revise_domains_false_eq hrev
          simp only [Bool.false_eq_true, if_false] at h
          subst hd2
          exact ih rest d2 dr h
        | true =>
          simp only [if_true] at h
          obtain ⟨i, j, hov, hd2, hiff⟩ := revise_domains_inv hrev
          by_cases hemp : (domGet d2 x).isEmpty = true
          · rw [if_pos hemp] at h
            simp only [Option.some.injEq, Prod.mk.injEq, true_and] at h
            refine ⟨x, ?_, ?_⟩
            · intro hnil
              have := hiff.mp rfl
              rw [hnil] at this
              simp at this
            · rw [← h]
              simpa using hemp
          · rw [if_neg hemp] at h
            obtain ⟨v, hv1, hv2⟩ := ih _ d2 dr h
            refine ⟨v, ?_, hv2⟩
            intro hnil
            apply hv1
            rw [hd2]
            by_cases hvx : v = x
            · subst hvx
              by_cases hk : v ∈ d.map Prod.fst
              · rw [domGet_domSet_self hk]
                rw [hnil]
                rfl
              · rw [domSet_of_not_mem hk]
                exact hnil
            · rw [domGet_domSet_ne hvx]
              exact hnil

/-! ## Cells and the variable-set characterization (slot discovery) -/

theorem cells_length (v : Variable) : v.cells.length = v.length := by
  simp [Variable.cells]

theorem mem_cells_iff {v : Variable} {c : Nat × Nat} :
    c ∈ v.cells ↔ ∃ k, k < v.length ∧
      c = (v.i + (if v.direction = Direction.down then k else 0),
           v.j + (if v.direction = Direction.across then k else 0)) := by
  simp only [Variable.cells, List.mem_map, List.mem_range]
  constructor
  · rintro ⟨k, hk, rfl⟩; exact ⟨k, hk, rfl⟩
  · rintro ⟨k, hk, rfl⟩; exact ⟨k, hk, rfl⟩

/-- The property of being a DOWN slot that the discovery loop adds:
fillable start with a blocked-or-border cell above, and a downward
fillable run longer than one. -/
def downSlotSpec (cw : Crossword) (v : Variable) : Prop :=
  v.direction = Direction.down ∧ v.i < cw.height ∧ v.j < cw.width ∧
  cw.fill v.i v.j = true ∧ (v.i = 0 ∨ cw.fill (v.i - 1) v.j = false) ∧
  1 < v.length ∧ v.length = cw.runLenDown v.i v.j

/-- Symmetric property for ACROSS slots. -/
def acrossSlotSpec (cw : Crossword) (v : Variable) : Prop :=
  v.direction = Direction.across ∧ v.i < cw.height ∧ v.j < cw.width ∧
  cw.fill v.i v.j = true ∧ (v.j = 0 ∨ cw.fill v.i (v.j - 1) = false) ∧
  1 < v.length ∧ v.length = cw.runLenAcross v.i v.j

theorem mem_downSlotAt_iff {cw : Crossword} {i j : Nat} {v : Variable} :
    v ∈ cw.downSlotAt i j ↔
      (cw.fill i j = true ∧ (i = 0 ∨ cw.fill (i - 1) j = false) ∧
       1 < cw.runLenDown i j ∧ v = ⟨i, j, Direction.down, cw.runLenDown i j⟩) := by
  unfold Crossword.downSlotAt
  by_cases hc : (cw.fill i j && (i == 0 || !cw.fill (i - 1) j)) = true
  · rw [if_pos hc]
    simp only [Bool.and_eq_true, Bool.or_eq_true, beq_iff_eq, Bool.not_eq_true'] at hc
    by_cases hl : 1 < cw.runLenDown i j
    · rw [if_pos hl]
      simp [hc.1, hc.2, hl]
    · rw [if_neg hl]
      simp [hl]
  · rw [if_neg hc]
    simp only [Bool.and_eq_true, Bool.or_eq_true, beq_iff_eq, Bool.not_eq_true'] at hc
    simp only [List.not_mem_nil, false_iff]
    rintro ⟨h1, h2, -, -⟩
    exact hc ⟨h1, h2⟩

theorem mem_acrossSlotAt_iff {cw : Crossword} {i j : Nat} {v : Variable} :
    v ∈ cw.acrossSlotAt i j ↔
      (cw.fill i j = true ∧ (j = 0 ∨ cw.fill i (j - 1) = false) ∧
       1 < cw.runLenAcross i j ∧ v = ⟨i, j, Direction.across, cw.runLenAcross i j⟩) := by
  unfold Crossword.acrossSlotAt
  by_cases hc : (cw.fill i j && (j == 0 || !cw.fill i (j - 1))) = true
  · rw [if_pos hc]
    simp only [Bool.and_eq_true, Bool.or_eq_true, beq_iff_eq, Bool.not_eq_true'] at hc
    by_cases hl : 1 < cw.runLenAcross i j
    · rw [if_pos hl]
      simp [hc.1, hc.2, hl]
    · rw [if_neg hl]
      simp [hl]
  · rw [if_neg hc]
    simp only [Bool.and_eq_true, Bool.or_eq_true, beq_iff_eq, Bool.not_eq_true'] at hc
    simp only [List.not_mem_nil, false_iff]
    rintro ⟨h1, h2, -, -⟩
    exact hc ⟨h1, h2⟩

theorem mem_variables_iff {cw : Crossword} {v : Variable} :
    v ∈ cw.variables ↔ downSlotSpec cw v ∨ acrossSlotSpec cw v := by
  unfold Crossword.variables
  simp only [List.mem_flatMap, List.mem_range, List.mem_append]
  constructor
  · rintro ⟨i, hi, j, hj, hv | hv⟩
    · left
      rw [mem_downSlotAt_iff] at hv
      obtain ⟨h1, h2, h3, rfl⟩ := hv
      exact ⟨rfl, hi, hj, h1, h2, h3, rfl⟩
    · right
      rw [mem_acrossSlotAt_iff] at hv
      obtain ⟨h1, h2, h3, rfl⟩ := hv
      exact ⟨rfl, hi, hj, h1, h2, h3, rfl⟩
  · rintro (⟨hdir, hi, hj, h1, h2, h3, hlen⟩ | ⟨hdir, hi, hj, h1, h2, h3, hlen⟩)
    · refine ⟨v.i, hi, v.j, hj, Or.inl ?_⟩
      rw [mem_downSlotAt_iff]
      refine ⟨h1, h2, hlen ▸ h3, ?_⟩
      cases v with
      | mk a b dir len => simp_all
    · refine ⟨v.i, hi, v.j, hj, Or.inr ?_⟩
      rw [mem_acrossSlotAt_iff]
      refine ⟨h1, h2, hlen ▸ h3, ?_⟩
      cases v with
      | mk a b dir len => simp_all

theorem variables_nodup (cw : Crossword) : cw.variables.Nodup := by
  unfold Crossword.variables
  rw [List.nodup_flatMap]
  constructor
  · intro i _
    rw [List.nodup_flatMap]
    constructor
    · intro j _
      have hd : ∀ w ∈ cw.downSlotAt i j, w.direction = Direction.down := by
        intro w hw; rw [mem_downSlotAt_iff] at hw; rw [hw.2.2.2]
      have ha : ∀ w ∈ cw.acrossSlotAt i j, w.direction = Direction.across := by
        intro w hw; rw [mem_acrossSlotAt_iff] at hw; rw [hw.2.2.2]
      apply List.Nodup.append
      · unfold Crossword.downSlotAt
        split
        · split
          · exact List.nodup_singleton _
          · exact List.nodup_nil
        · exact List.nodup_nil
      · unfold Crossword.acrossSlotAt
        split
        · split
          · exact List.nodup_singleton _
          · exact List.nodup_nil
        · exact List.nodup_nil
      · intro w hw hw2
        have := hd w hw
        have := ha w hw2
        simp_all
    · rw [List.pairwise_iff_forall_sublist]
      intro j1 j2 hsub
      have hne : j1 ≠ j2 := by
        have := List.Sublist.subset hsub
        have hnd := (List.nodup_range cw.width).sublist hsub
        simp at hnd
        exact hnd
      intro w hw1 hw2
      simp only [List.mem_append] at hw1 hw2
      have hj1 : w.j = j1 := by
        rcases hw1 with hw | hw
        · rw [mem_downSlotAt_iff] at hw; rw [hw.2.2.2]
        · rw [mem_acrossSlotAt_iff] at hw; rw [hw.2.2.2]
      have hj2 : w.j = j2 := by
        rcases hw2 with hw | hw
        · rw [mem_downSlotAt_iff] at hw; rw [hw.2.2.2]
        · rw [mem_acrossSlotAt_iff] at hw; rw [hw.2.2.2]
      exact hne (hj1 ▸ hj2 ▸ rfl)
  · rw [List.pairwise_iff_forall_sublist]
    intro i1 i2 hsub
    have hne : i1 ≠ i2 := by
      have hnd := (List.nodup_range cw.height).sublist hsub
      simp at hnd
      exact hnd
    intro w hw1 hw2
    simp only [List.mem_flatMap, List.mem_range, List.mem_append] at hw1 hw2
    obtain ⟨j1, -, hw1⟩ := hw1
    obtain ⟨j2, -, hw2⟩ := hw2
    have hi1 : w.i = i1 := by
      rcases hw1 with hw | hw
      · rw [mem_downSlotAt_iff] at hw; rw [hw.2.2.2]
      · rw [mem_acrossSlotAt_iff] at hw; rw [hw.2.2.2]
    have hi2 : w.i = i2 := by
      rcases hw2 with hw | hw
      · rw [mem_downSlotAt_iff] at hw; rw [hw.2.2.2]
      · rw [mem_acrossSlotAt_iff] at hw; rw [hw.2.2.2]
    exact hne (hi1 ▸ hi2 ▸ rfl)

/-! ## Geometry: cells of discovered slots, uniqueness of shared cells -/

theorem mem_cells_down {v : Variable} (hd : v.direction = Direction.down) {c : Nat × Nat} :
    c ∈ v.cells ↔ ∃ k, k < v.length ∧ c = (v.i + k, v.j) := by
  rw [mem_cells_iff]
  simp [hd]

theorem mem_cells_across {v : Variable} (hd : v.direction = Direction.across) {c : Nat × Nat} :
    c ∈ v.cells ↔ ∃ k, k < v.length ∧ c = (v.i, v.j + k) := by
  rw [mem_cells_iff]
  simp [hd]

theorem takeWhile_range'_pred {p : Nat → Bool} :
    ∀ (n s k : Nat), k < ((List.range' s n).takeWhile p).length → p (s + k) = true := by
  intro n
  induction n with
  | zero => intro s k h; simp [List.range'] at h
  | succ m ih =>
    intro s k h
    have hr : List.range' s (m + 1) = s :: List.range' (s + 1) m := rfl
    rw [hr] at h
    by_cases hp : p s = true
    · rw [List.takeWhile_cons_of_pos hp] at h
      simp only [List.length_cons] at h
      cases k with
      | zero => simpa using hp
      | succ k2 =>
        have := ih (s + 1) k2 (by omega)
        have heq : s + 1 + k2 = s + (k2 + 1) := by omega
        rwa [heq] at this
    · rw [List.takeWhile_cons_of_neg (by simpa using hp)] at h
      simp at h

theorem fill_of_spec_down {cw : Crossword} {v : Variable} (hs : downSlotSpec cw v)
    {k : Nat} (hk : k < v.length) : cw.fill (v.i + k) v.j = true := by
  obtain ⟨hdir, hi, hj, h1, h2, h3, hlen⟩ := hs
  rcases Nat.eq_zero_or_pos k with hk0 | hk1
  · subst hk0; simpa using h1
  · rw [hlen] at hk
    unfold Crossword.runLenDown at hk
    have hkT : k - 1 <
        ((List.range' (v.i + 1) (cw.height - (v.i + 1))).takeWhile
          (fun r => cw.fill r v.j)).length := by omega
    have := @takeWhile_range'_pred (fun r => cw.fill r v.j) _ _ _ hkT
    have heq : v.i + 1 + (k - 1) = v.i + k := by omega
    rwa [heq] at this

theorem fill_of_spec_across {cw : Crossword} {v : Variable} (hs : acrossSlotSpec cw v)
    {k : Nat} (hk : k < v.length) : cw.fill v.i (v.j + k) = true := by
  obtain ⟨hdir, hi, hj, h1, h2, h3, hlen⟩ := hs
  rcases Nat.eq_zero_or_pos k with hk0 | hk1
  · subst hk0; simpa using h1
  · rw [hlen] at hk
    unfold Crossword.runLenAcross at hk
    have hkT : k - 1 <
        ((List.range' (v.j + 1) (cw.width - (v.j + 1))).takeWhile
          (fun r => cw.fill v.i r)).length := by omega
    have := @takeWhile_range'_pred (fun r => cw.fill v.i r) _ _ _ hkT
    have heq : v.j + 1 + (k - 1) = v.j + k := by omega
    rwa [heq] at this

theorem down_down_no_share_lt {cw : Crossword} {v1 v2 : Variable}
    (hs1 : downSlotSpec cw v1) (hs2 : downSlotSpec cw v2)
    (hj : v1.j = v2.j) (hlt : v1.i < v2.i) {c : Nat × Nat}
    (hc1 : c ∈ v1.cells) (hc2 : c ∈ v2.cells) : False := by
  rw [mem_cells_down hs1.1] at hc1
  rw [mem_cells_down hs2.1] at hc2
  obtain ⟨k1, hk1, rfl⟩ := hc1
  obtain ⟨k2, hk2, hc2⟩ := hc2
  have hrow : v1.i + k1 = v2.i + k2 := by
    have := congrArg Prod.fst hc2
    simpa using this
  have hm : v2.i - 1 - v1.i < v1.length := by omega
  have hfill := fill_of_spec_down hs1 hm
  have heq : v1.i + (v2.i - 1 - v1.i) = v2.i - 1 := by omega
  rw [heq, hj] at hfill
  rcases hs2.2.2.2.2.1 with h0 | hf
  · omega
  · rw [hf] at hfill; cases hfill

theorem across_across_no_share_lt {cw : Crossword} {v1 v2 : Variable}
    (hs1 : acrossSlotSpec cw v1) (hs2 : acrossSlotSpec cw v2)
    (hi : v1.i = v2.i) (hlt : v1.j < v2.j) {c : Nat × Nat}
    (hc1 : c ∈ v1.cells) (hc2 : c ∈ v2.cells) : False := by
  rw [mem_cells_across hs1.1] at hc1
  rw [mem_cells_across hs2.1] at hc2
  obtain ⟨k1, hk1, rfl⟩ := hc1
  obtain ⟨k2, hk2, hc2⟩ := hc2
  have hcol : v1.j + k1 = v2.j + k2 := by
    have := congrArg Prod.snd hc2
    simpa using this
  have hm : v2.j - 1 - v1.j < v1.length := by omega
  have hfill := fill_of_spec_across hs1 hm
  have heq : v1.j + (v2.j - 1 - v1.j) = v2.j - 1 := by omega
  rw [heq, hi] at hfill
  rcases hs2.2.2.2.2.1 with h0 | hf
  · omega
  · rw [hf] at hfill; cases hfill

theorem down_across_share_eq {v1 v2 : Variable}
    (hd1 : v1.direction = Direction.down) (hd2 : v2.direction = Direction.across)
    {c : Nat × Nat} (hc1 : c ∈ v1.cells) (hc2 : c ∈ v2.cells) : c = (v2.i, v1.j) := by
  rw [mem_cells_down hd1] at hc1
  rw [mem_cells_across hd2] at hc2
  obtain ⟨k1, hk1, rfl⟩ := hc1
  obtain ⟨k2, hk2, hc2⟩ := hc2
  have h1 := congrArg Prod.fst hc2
  simp only at h1
  rw [Prod.mk.injEq]
  exact ⟨h1, rfl⟩

theorem shared_cell_unique {cw : Crossword} {v1 v2 : Variable}
    (hv1 : v1 ∈ cw.variables) (hv2 : v2 ∈ cw.variables) (hne : v1 ≠ v2)
    {c1 c2 : Nat × Nat} (h11 : c1 ∈ v1.cells) (h12 : c1 ∈ v2.cells)
    (h21 : c2 ∈ v1.cells) (h22 : c2 ∈ v2.cells) : c1 = c2 := by
  rw [mem_variables_iff] at hv1 hv2
  rcases hv1 with hs1 | hs1 <;> rcases hv2 with hs2 | hs2
  · -- both DOWN
    have hj : v1.j = v2.j := by
      rw [mem_cells_down hs1.1] at h11
      rw [mem_cells_down hs2.1] at h12
      obtain ⟨k1, -, rfl⟩ := h11
      obtain ⟨k2, -, h12⟩ := h12
      have := congrArg Prod.snd h12
      simpa using this
    rcases Nat.lt_trichotomy v1.i v2.i with h | h | h
    · exact (down_down_no_share_lt hs1 hs2 hj h h11 h12).elim
    · exfalso
      apply hne
      have hl : v1.length = v2.length := by
        rw [hs1.2.2.2.2.2.2, hs2.2.2.2.2.2.2, h, hj]
      cases v1 with
      | mk a b dir len =>
        cases v2 with
        | mk a2 b2 dir2 len2 =>
          simp only at h hj hl
          have e1 := hs1.1
          have e2 := hs2.1
          simp only at e1 e2
          simp [h, hj, hl, e1, e2]
    · exact (down_down_no_share_lt hs2 hs1 hj.symm h h12 h11).elim
  · -- v1 DOWN, v2 ACROSS
    rw [down_across_share_eq hs1.1 hs2.1 h11 h12,
        down_across_share_eq hs1.1 hs2.1 h21 h22]
  · -- v1 ACROSS, v2 DOWN
    rw [down_across_share_eq hs2.1 hs1.1 h12 h11,
        down_across_share_eq hs2.1 hs1.1 h22 h21]
  · -- both ACROSS
    have hi : v1.i = v2.i := by
      rw [mem_cells_across hs1.1] at h11
      rw [mem_cells_across hs2.1] at h12
      obtain ⟨k1, -, rfl⟩ := h11
      obtain ⟨k2, -, h12⟩ := h12
      have := congrArg Prod.fst h12
      simpa using this
    rcases Nat.lt_trichotomy v1.j v2.j with h | h | h
    · exact (across_across_no_share_lt hs1 hs2 hi h h11 h12).elim
    · exfalso
      apply hne
      have hl : v1.length = v2.length := by
        rw [hs1.2.2.2.2.2.2, hs2.2.2.2.2.2.2, h, hi]
      cases v1 with
      | mk a b dir len =>
        cases v2 with
        | mk a2 b2 dir2 len2 =>
          simp only at h hi hl
          have e1 := hs1.1
          have e2 := hs2.1
          simp only at e1 e2
          simp [h, hi, hl, e1, e2]
    · exact (across_across_no_share_lt hs2 hs1 hi.symm h h12 h11).elim

/-! ## Overlap-table lemmas -/

theorem overlapPair_some_inv {cw : Crossword} {v1 v2 : Variable} {i j : Nat}
    (h : cw.overlapPair v1 v2 = some (i, j)) :
    v1 ∈ cw.variables ∧ v2 ∈ cw.variables ∧ v1 ≠ v2 ∧
    ∃ c, c ∈ v1.cells ∧ c ∈ v2.cells ∧
      i = v1.cells.indexOf c ∧ j = v2.cells.indexOf c := by
  unfold Crossword.overlapPair at h
  split at h
  · next hguard =>
    obtain ⟨hm1, hm2, hne⟩ := hguard
    refine ⟨hm1, hm2, hne, ?_⟩
    cases hfil : v1.cells.filter (fun c => decide (c ∈ v2.cells)) with
    | nil => rw [hfil] at h; simp at h
    | cons c t =>
      rw [hfil] at h
      simp only [Option.some.injEq, Prod.mk.injEq] at h
      have hcmem : c ∈ v1.cells.filter (fun c => decide (c ∈ v2.cells)) := by
        rw [hfil]; exact List.mem_cons_self _ _
      have := List.mem_filter.mp hcmem
      exact ⟨c, this.1, of_decide_eq_true this.2, h.1.symm, h.2.symm⟩
  · next => simp at h

theorem overlapPair_symm {cw : Crossword} {v1 v2 : Variable} {i j : Nat}
    (h : cw.overlapPair v1 v2 = some (i, j)) :
    cw.overlapPair v2 v1 = some (j, i) := by
  obtain ⟨hm1, hm2, hne, c, hc1, hc2, hi, hj⟩ := overlapPair_some_inv h
  unfold Crossword.overlapPair
  rw [if_pos ⟨hm2, hm1, hne.symm⟩]
  cases hfil : v2.cells.filter (fun c2 => decide (c2 ∈ v1.cells)) with
  | nil =>
    exfalso
    have : c ∈ v2.cells.filter (fun c2 => decide (c2 ∈ v1.cells)) :=
      List.mem_filter.mpr ⟨hc2, by simpa using hc1⟩
    rw [hfil] at this
    simp at this
  | cons c2 t =>
    have hc2f : c2 ∈ v2.cells.filter (fun c2 => decide (c2 ∈ v1.cells)) := by
      rw [hfil]; exact List.mem_cons_self _ _
    have hc2m := List.mem_filter.mp hc2f
    have hc2m1 : c2 ∈ v1.cells := of_decide_eq_true hc2m.2
    have hceq : c2 = c := shared_cell_unique hm2 hm1 hne.symm hc2m.1 hc2m1 hc2 hc1
    subst hceq
    rw [hi, hj]

theorem overlapPair_isSome_symm {cw : Crossword} {v1 v2 : Variable}
    (h : (cw.overlapPair v1 v2).isSome = true) :
    (cw.overlapPair v2 v1).isSome = true := by
  rw [Option.isSome_iff_exists] at h
  obtain ⟨p, hp⟩ := h
  obtain ⟨i, j⟩ := p
  rw [overlapPair_symm hp]
  rfl

theorem indexOf_getElem? {α : Type} [BEq α] [LawfulBEq α] {a : α} :
    ∀ {l : List α}, a ∈ l → l[l.indexOf a]? = some a := by
  intro l h
  induction l with
  | nil => simp at h
  | cons b t ih =>
    by_cases hb : (b == a) = true
    · have hba : b = a := eq_of_beq hb
      subst hba
      simp [List.indexOf_cons]
    · have hat : a ∈ t := by
        rcases List.mem_cons.mp h with h1 | h1
        · exfalso; apply hb; rw [h1]; exact beq_self_eq_true b
        · exact h1
      simp [List.indexOf_cons, hb, ih hat]

theorem indexOf_lt_length_of_mem {α : Type} [BEq α] [LawfulBEq α] {a : α}
    {l : List α} (h : a ∈ l) : l.indexOf a < l.length := by
  have hg := indexOf_getElem? h
  by_contra hge
  push_neg at hge
  rw [List.getElem?_eq_none hge] at hg
  cases hg

theorem overlapPair_lt {cw : Crossword} {v1 v2 : Variable} {i j : Nat}
    (h : cw.overlapPair v1 v2 = some (i, j)) :
    i < v1.length ∧ j < v2.length := by
  obtain ⟨-, -, -, c, hc1, hc2, hi, hj⟩ := overlapPair_some_inv h
  constructor
  · rw [hi, ← cells_length v1]
    exact indexOf_lt_length_of_mem hc1
  · rw [hj, ← cells_length v2]
    exact indexOf_lt_length_of_mem hc2

theorem overlapPair_shared_cell {cw : Crossword} {v1 v2 : Variable} {i j : Nat}
    (h : cw.overlapPair v1 v2 = some (i, j)) :
    ∃ c, v1.cells[i]? = some c ∧ v2.cells[j]? = some c := by
  obtain ⟨-, -, -, c, hc1, hc2, hi, hj⟩ := overlapPair_some_inv h
  refine ⟨c, ?_, ?_⟩
  · rw [hi]; exact indexOf_getElem? hc1
  · rw [hj]; exact indexOf_getElem? hc2

theorem mem_neighbors_iff {cw : Crossword} {var u : Variable} :
    u ∈ cw.neighbors var ↔
      u ∈ cw.variables ∧ u ≠ var ∧ (cw.overlapPair u var).isSome = true := by
  unfold Crossword.neighbors
  rw [List.mem_filter]
  simp [bne_iff_ne, and_assoc]

theorem mem_neighbors_of_overlap {cw : Crossword} {v1 v2 : Variable} {i j : Nat}
    (h : cw.overlapPair v1 v2 = some (i, j)) : v2 ∈ cw.neighbors v1 := by
  obtain ⟨hm1, hm2, hne, -⟩ := overlapPair_some_inv h
  rw [mem_neighbors_iff]
  refine ⟨hm2, hne.symm, ?_⟩
  rw [overlapPair_symm h]
  rfl

theorem overlapPair_of_mem_neighbors {cw : Crossword} {var u : Variable}
    (h : u ∈ cw.neighbors var) : (cw.overlapPair var u).isSome = true := by
  rw [mem_neighbors_iff] at h
  exact overlapPair_isSome_symm h.2.2

/-! ## AC-3 arc-consistency postcondition -/

/-- Arc `(x, y)` is consistent in `d`: every word left for `x` has a
matching partner left for `y` at the overlap indices. -/
def arcCons (cw : Crossword) (d : Domains) (x y : Variable) : Prop :=
  ∀ i j, cw.overlapPair x y = some (i, j) →
    ∀ wx ∈ domGet d x, ∃ wy ∈ domGet d y, wx.getD i 'A' = wy.getD j 'A'

theorem arcCons_of_all_keep {cw : Crossword} {d : Domains} {x y : Variable}
    {i0 j0 : Nat} (hov : cw.overlapPair x y = some (i0, j0))
    (hall : ∀ wx ∈ domGet d x, reviseKeep (domGet d y) i0 j0 wx = true) :
    arcCons cw d x y := by
  intro i j hov2 wx hwx
  rw [hov] at hov2
  obtain ⟨hi, hj⟩ := Prod.mk.injEq .. ▸ (Option.some.injEq _ _).mp hov2
  have hk := hall wx hwx
  unfold reviseKeep at hk
  rw [List.any_eq_true] at hk
  obtain ⟨wy, hwy, hbeq⟩ := hk
  exact ⟨wy, hwy, by rw [← hi, ← hj]; exact eq_of_beq hbeq⟩

theorem arcCons_shrink_left {cw : Crossword} {d d2 : Domains} {x y : Variable}
    (hsub : ∀ w ∈ domGet d2 x, w ∈ domGet d x)
    (hy : domGet d2 y = domGet d y)
    (h : arcCons cw d x y) : arcCons cw d2 x y := by
  intro i j hov wx hwx
  rw [hy]
  exact h i j hov wx (hsub wx hwx)

theorem apply_ac3_invariant {cw : Crossword} :
    ∀ (fuel : Nat) (arcs : List (Variable × Variable)) (d dr : Domains),
      (∀ a b, (cw.overlapPair a b).isSome = true → (a, b) ∈ arcs ∨ arcCons cw d a b) →
      apply_ac3 cw fuel arcs d = some (some (true, dr)) →
      ∀ a b, (cw.overlapPair a b).isSome = true → arcCons cw dr a b := by
  intro fuel
  induction fuel with
  | zero => intro arcs d dr _ h; simp [apply_ac3] at h
  | succ n ih =>
    intro arcs d dr hinv h
    match arcs with
    | [] =>
      simp only [apply_ac3, Option.some.injEq, Prod.mk.injEq, true_and] at h
      subst h
      intro a b hab
      rcases hinv a b hab with hmem | hcons
      · simp at hmem
      · exact hcons
    | (x, y) :: rest =>
      rw [apply_ac3_cons] at h
      cases hrev : revise_domains cw d x y with
      | none => rw [hrev] at h; simp at h
      | some p =>
        obtain ⟨revised, d2⟩ := p
        rw [hrev] at h
        obtain ⟨i0, j0, hov, hd2, hiff⟩ := revise_domains_inv hrev
        cases revised with
        | false =>
          have hd2d : d2 = d := revise_domains_false_eq hrev
          simp only [Bool.false_eq_true, if_false] at h
          subst hd2d
          refine ih rest d2 dr ?_ h
          intro a b hab
          rcases hinv a b hab with hmem | hcons
          · rcases List.mem_cons.mp hmem with heq | hmem2
            · right
              obtain ⟨ha, hb⟩ := Prod.mk.injEq .. ▸ heq
              subst ha; subst hb
              have hlen : ((domGet d2 a).filter (reviseKeep (domGet d2 b) i0 j0)).length =
                  (domGet d2 a).length := by
                by_contra hne
                exact absurd (hiff.mpr hne) (by simp)
              have hself : (domGet d2 a).filter (reviseKeep (domGet d2 b) i0 j0) =
                  domGet d2 a := (List.filter_sublist _).eq_of_length hlen
              exact arcCons_of_all_keep hov (List.filter_eq_self.mp hself)
            · exact Or.inl hmem2
          · exact Or.inr hcons
        | true =>
          simp only [if_true] at h
          by_cases hemp : (domGet d2 x).isEmpty = true
          · rw [if_pos hemp] at h; simp at h
          · rw [if_neg hemp] at h
            have hxkeys : x ∈ d.map Prod.fst := by
              apply mem_keys_of_domGet_ne_nil
              intro hnil
              have hne := hiff.mp rfl
              rw [hnil] at hne
              simp at hne
            have hd2x : domGet d2 x = (domGet d x).filter (reviseKeep (domGet d y) i0 j0) := by
              rw [hd2]; exact domGet_domSet_self hxkeys
            have hxney : x ≠ y := (overlapPair_some_inv hov).2.2.1
            refine ih _ d2 dr ?_ h
            intro a b hab
            by_cases hbx : b = x
            · subst hbx
              by_cases hay : a = y
              · subst hay
                rcases hinv a b hab with hmem | hcons
                · rcases List.mem_cons.mp hmem with heq | hmem2
                  · exfalso
                    obtain ⟨h1, h2⟩ := Prod.mk.injEq .. ▸ heq
                    exact hxney h1.symm
                  · exact Or.inl (List.mem_append_right _ hmem2)
                · right
                  intro i j hov2 wy hwy
                  have hovyx : cw.overlapPair a b = some (j0, i0) := overlapPair_symm hov
                  rw [hovyx] at hov2
                  obtain ⟨hi, hj⟩ := Prod.mk.injEq .. ▸ (Option.some.injEq _ _).mp hov2
                  have hwy2 : wy ∈ domGet d a := by
                    rw [hd2] at hwy
                    rwa [domGet_domSet_ne (Ne.symm hxney)] at hwy
                  obtain ⟨wx0, hwx0, hmatch⟩ := hcons j0 i0 hovyx wy hwy2
                  by_cases hkeep : reviseKeep (domGet d a) i0 j0 wx0 = true
                  · refine ⟨wx0, ?_, by rw [← hi, ← hj]; exact hmatch⟩
                    rw [hd2x]
                    exact List.mem_filter.mpr ⟨hwx0, hkeep⟩
                  · exfalso
                    apply hkeep
                    unfold reviseKeep
                    rw [List.any_eq_true]
                    exact ⟨wy, hwy2, beq_iff_eq.mpr hmatch.symm⟩
              · -- b = x, a ∉ {x, y}: the arc (a, x) is re-enqueued
                left
                apply List.mem_append_left
                obtain ⟨p2, hp2⟩ := Option.isSome_iff_exists.mp hab
                obtain ⟨ia, jb⟩ := p2
                obtain ⟨hma, hmb, hnab, -⟩ := overlapPair_some_inv hp2
                rw [List.mem_map]
                refine ⟨a, ?_, rfl⟩
                rw [List.mem_filter]
                constructor
                · rw [mem_neighbors_iff]
                  exact ⟨hma, hnab, by rw [hp2]; rfl⟩
                · simpa [bne_iff_ne] using hay
            · -- b ≠ x: the domain of b is unchanged
              have hdb : domGet d2 b = domGet d b := by
                rw [hd2]; exact domGet_domSet_ne hbx
              by_cases hax : a = x
              · subst hax
                rcases hinv a b hab with hmem | hcons
                · rcases List.mem_cons.mp hmem with heq | hmem2
                  · -- the popped arc itself: now consistent by construction
                    right
                    obtain ⟨-, hby⟩ := Prod.mk.injEq .. ▸ heq
                    subst hby
                    apply arcCons_of_all_keep hov
                    intro wx hwx
                    rw [hd2x] at hwx
                    rw [hdb]
                    exact (List.mem_filter.mp hwx).2
                  · exact Or.inl (List.mem_append_right _ hmem2)
                · right
                  apply arcCons_shrink_left ?_ hdb hcons
                  intro w hw
                  rw [hd2] at hw
                  exact domGet_sub_of_domSet_filter w hw
              · -- neither endpoint is x: nothing changed for this arc
                have hda : domGet d2 a = domGet d a := by
                  rw [hd2]; exact domGet_domSet_ne hax
                rcases hinv a b hab with hmem | hcons
                · rcases List.mem_cons.mp hmem with heq | hmem2
                  · exfalso
                    obtain ⟨h1, -⟩ := Prod.mk.injEq .. ▸ heq
                    exact hax h1
                  · exact Or.inl (List.mem_append_right _ hmem2)
                · right
                  apply arcCons_shrink_left ?_ hdb hcons
                  intro w hw
                  rwa [hda] at hw

/-! ## Absence of runtime faults in the solver pipeline -/

theorem revise_domains_eq_of_overlap {cw : Crossword} {d : Domains} {x y : Variable}
    {i j : Nat} (hov : cw.overlapPair x y = some (i, j)) :
    revise_domains cw d x y =
      if !(domGet d x).isEmpty && !(domGet d y).isEmpty &&
          ((domGet d x).any (fun wx => wx.length ≤ i) ||
           (domGet d y).any (fun wy => wy.length ≤ j)) then
        none
      else
        some (((domGet d x).filter (reviseKeep (domGet d y) i j)).length
                != (domGet d x).length,
              domSet d x ((domGet d x).filter (reviseKeep (domGet d y) i j))) := by
  unfold revise_domains
  rw [hov]

theorem revise_domains_ne_none {cw : Crossword} {d : Domains} {x y : Variable}
    {i j : Nat} (hov : cw.overlapPair x y = some (i, j))
    (hlen : ∀ v w, w ∈ domGet d v → w.length = v.length) :
    revise_domains cw d x y ≠ none := by
  rw [revise_domains_eq_of_overlap hov]
  have hcond : (!(domGet d x).isEmpty && !(domGet d y).isEmpty &&
      ((domGet d x).any (fun wx => wx.length ≤ i) ||
       (domGet d y).any (fun wy => wy.length ≤ j))) = false := by
    have hx : (domGet d x).any (fun wx => wx.length ≤ i) = false := by
      rw [List.any_eq_false]
      intro w hw
      have := hlen x w hw
      have hi := (overlapPair_lt hov).1
      simp only [decide_eq_true_eq]
      omega
    have hy : (domGet d y).any (fun wy => wy.length ≤ j) = false := by
      rw [List.any_eq_false]
      intro w hw
      have := hlen y w hw
      have hj := (overlapPair_lt hov).2
      simp only [decide_eq_true_eq]
      omega
    rw [hx, hy]
    simp
  rw [hcond]
  simp

theorem len_preserved_domSet_filter {d : Domains} {x : Variable} {p : Word → Bool}
    (hlen : ∀ v w, w ∈ domGet d v → w.length = v.length) :
    ∀ v w, w ∈ domGet (domSet d x ((domGet d x).filter p)) v → w.length = v.length :=
  fun v w hw => hlen v w (domGet_sub_of_domSet_filter w hw)

theorem apply_ac3_ne_fault {cw : Crossword} :
    ∀ (fuel : Nat) (arcs : List (Variable × Variable)) (d : Domains),
      (∀ p ∈ arcs, (cw.overlapPair p.1 p.2).isSome = true) →
      (∀ v w, w ∈ domGet d v → w.length = v.length) →
      apply_ac3 cw fuel arcs d ≠ some none := by
  intro fuel
  induction fuel with
  | zero => intro arcs d _ _; simp [apply_ac3]
  | succ n ih =>
    intro arcs d harcs hlen
    match arcs with
    | [] => simp [apply_ac3]
    | (x, y) :: rest =>
      rw [apply_ac3_cons]
      have hxy := harcs (x, y) (List.mem_cons_self _ _)
      obtain ⟨p0, hp0⟩ := Option.isSome_iff_exists.mp hxy
      obtain ⟨i, j⟩ := p0
      cases hrev : revise_domains cw d x y with
      | none => exact absurd hrev (revise_domains_ne_none hp0 hlen)
      | some p =>
        obtain ⟨revised, d2⟩ := p
        obtain ⟨i0, j0, hov, hd2, -⟩ := revise_domains_inv hrev
        cases revised with
        | false =>
          have hd2d : d2 = d := revise_domains_false_eq hrev
          simp only [Bool.false_eq_true, if_false]
          subst hd2d
          exact ih rest d2 (fun p hp => harcs p (List.mem_cons_of_mem _ hp)) hlen
        | true =>
          simp only [if_true]
          by_cases hemp : (domGet d2 x).isEmpty = true
          · rw [if_pos hemp]; simp
          · rw [if_neg hemp]
            apply ih
            · intro p hp
              rcases List.mem_append.mp hp with hp1 | hp2
              · rw [List.mem_map] at hp1
                obtain ⟨z, hz, rfl⟩ := hp1
                rw [List.mem_filter] at hz
                exact (mem_neighbors_iff.mp hz.1).2.2
              · exact harcs p (List.mem_cons_of_mem _ hp2)
            · rw [hd2]
              exact len_preserved_domSet_filter hlen

theorem ensure_node_consistency_len (d : Domains) :
    ∀ v w, w ∈ domGet (ensure_node_consistency d) v → w.length = v.length := by
  intro v w hw
  induction d with
  | nil => simp [ensure_node_consistency, domGet] at hw
  | cons p rest ih =>
    simp only [ensure_node_consistency, List.map_cons] at hw
    by_cases hp : p.1 = v
    · rw [domGet, if_pos hp] at hw
      have := List.mem_filter.mp hw
      have hlen := this.2
      rw [beq_iff_eq] at hlen
      rw [hlen, hp]
    · rw [domGet, if_neg hp] at hw
      exact ih hw

theorem initial_arcs_overlap {cw : Crossword} {d : Domains} :
    ∀ p ∈ initial_arcs cw d, (cw.overlapPair p.1 p.2).isSome = true := by
  intro p hp
  unfold initial_arcs at hp
  rw [List.mem_flatMap] at hp
  obtain ⟨x, hx, hp⟩ := hp
  rw [List.mem_map] at hp
  obtain ⟨y, hy, rfl⟩ := hp
  exact overlapPair_of_mem_neighbors hy

theorem initial_arcs_complete {cw : Crossword} {d : Domains}
    (hk : d.map Prod.fst = cw.variables) :
    ∀ a b i j, cw.overlapPair a b = some (i, j) → (a, b) ∈ initial_arcs cw d := by
  intro a b i j hov
  obtain ⟨hma, hmb, hne, -⟩ := overlapPair_some_inv hov
  unfold initial_arcs
  rw [List.mem_flatMap]
  refine ⟨a, by rw [hk]; exact hma, ?_⟩
  rw [List.mem_map]
  exact ⟨b, mem_neighbors_of_overlap hov, rfl⟩

/-! ## Backtracking-search soundness -/

theorem alookup_eq_none_iff {a : Assignment} {v : Variable} :
    alookup a v = none ↔ v ∉ a.map Prod.fst := by
  induction a with
  | nil => simp [alookup]
  | cons p rest ih =>
    by_cases hp : p.1 = v
    · simp [alookup, hp]
    · simp only [alookup, if_neg hp, List.map_cons, List.mem_cons, ih]
      constructor
      · intro hm h1
        rcases h1 with h1 | h1
        · exact hp h1.symm
        · exact hm h1
      · intro hm h1
        exact hm (Or.inr h1)

theorem alookup_mem {a : Assignment} {v : Variable} {w : Word}
    (h : alookup a v = some w) : (v, w) ∈ a := by
  induction a with
  | nil => simp [alookup] at h
  | cons p rest ih =>
    by_cases hp : p.1 = v
    · rw [alookup, if_pos hp] at h
      injection h with h
      have hpv : p = (v, w) := by
        cases p with
        | mk k u =>
          simp only at hp h
          rw [hp, h]
      rw [hpv]
      exact List.mem_cons_self _ _
    · rw [alookup, if_neg hp] at h
      exact List.mem_cons_of_mem _ (ih h)

theorem alookup_mem_snd {a : Assignment} {v : Variable} {w : Word}
    (h : alookup a v = some w) : w ∈ a.map Prod.snd := by
  rw [List.mem_map]
  exact ⟨(v, w), alookup_mem h, rfl⟩

theorem alookup_isSome_of_mem_keys {a : Assignment} {v : Variable}
    (h : v ∈ a.map Prod.fst) : ∃ w, alookup a v = some w := by
  cases ha : alookup a v with
  | none => exact absurd h (alookup_eq_none_iff.mp ha)
  | some w => exact ⟨w, rfl⟩

theorem alookup_ne_of_vals_nodup {a : Assignment} {v1 v2 : Variable} {w1 w2 : Word}
    (hnd : (a.map Prod.snd).Nodup) (hne : v1 ≠ v2)
    (h1 : alookup a v1 = some w1) (h2 : alookup a v2 = some w2) : w1 ≠ w2 := by
  induction a with
  | nil => simp [alookup] at h1
  | cons p rest ih =>
    simp only [List.map_cons, List.nodup_cons] at hnd
    by_cases hp1 : p.1 = v1
    · rw [alookup, if_pos hp1] at h1
      injection h1 with h1
      have hp2 : p.1 ≠ v2 := fun hc => hne (hp1 ▸ hc ▸ rfl)
      rw [alookup, if_neg hp2] at h2
      intro hc
      apply hnd.1
      rw [h1, hc]
      exact alookup_mem_snd h2
    · rw [alookup, if_neg hp1] at h1
      by_cases hp2 : p.1 = v2
      · rw [alookup, if_pos hp2] at h2
        injection h2 with h2
        intro hc
        apply hnd.1
        rw [h2, ← hc]
        exact alookup_mem_snd h1
      · rw [alookup, if_neg hp2] at h2
        exact ih hnd.2 h1 h2

theorem select_variable_foldl_mem {cw : Crossword} {d : Domains} :
    ∀ (l : List Variable) (acc : Option Variable) (var : Variable),
      (l.foldl (fun best var =>
        match best with
        | none => some var
        | some b =>
          if (domGet d var).length < (domGet d b).length
              || (cw.neighbors b).length < (cw.neighbors var).length
          then some var else some b) acc) = some var →
      acc = some var ∨ var ∈ l := by
  intro l
  induction l with
  | nil => intro acc var h; exact Or.inl h
  | cons v t ih =>
    intro acc var h
    rw [List.foldl_cons] at h
    rcases ih _ var h with hacc | hmem
    · cases acc with
      | none =>
        simp only at hacc
        injection hacc with hacc
        exact Or.inr (hacc ▸ List.mem_cons_self _ _)
      | some b =>
        simp only at hacc
        split at hacc
        · injection hacc with hacc
          exact Or.inr (hacc ▸ List.mem_cons_self _ _)
        · exact Or.inl hacc
    · exact Or.inr (List.mem_cons_of_mem _ hmem)

theorem select_variable_spec {cw : Crossword} {d : Domains} {a : Assignment}
    {var : Variable} (h : select_variable cw d a = some var) :
    var ∈ cw.variables ∧ alookup a var = none := by
  unfold select_variable at h
  rcases select_variable_foldl_mem _ _ _ h with hacc | hmem
  · cases hacc
  · rw [List.mem_filter] at hmem
    exact ⟨hmem.1, Option.isNone_iff_eq_none.mp hmem.2⟩

theorem is_consistent_props {cw : Crossword} {a : Assignment}
    (h : is_consistent cw a = true) :
    (a.map Prod.snd).Nodup ∧
    ∀ p ∈ a, p.2.length = p.1.length ∧
      ∀ nb ∈ cw.neighbors p.1, ∀ wn, alookup a nb = some wn →
        ∀ i j, cw.overlapPair p.1 nb = some (i, j) →
          p.2.getD i 'A' = wn.getD j 'A' := by
  unfold is_consistent at h
  rw [Bool.and_eq_true] at h
  obtain ⟨h1, h2⟩ := h
  refine ⟨of_decide_eq_true h1, ?_⟩
  intro p hp
  rw [List.all_eq_true] at h2
  have hpp := h2 p hp
  rw [Bool.and_eq_true] at hpp
  obtain ⟨hl, hn⟩ := hpp
  refine ⟨by rwa [beq_iff_eq] at hl, ?_⟩
  intro nb hnb wn hwn i j hov
  rw [List.all_eq_true] at hn
  have hq := hn nb hnb
  simp only [hwn, hov, beq_iff_eq] at hq
  exact hq

/-- Definitional unfolding of one backtracking step. -/
theorem perform_backtracking_succ (cw : Crossword) (d : Domains) (n : Nat)
    (a : Assignment) :
    perform_backtracking cw d (n + 1) a =
      if is_assignment_complete cw a then some a
      else
        match select_variable cw d a with
        | none => none
        | some var =>
          (domGet d var).foldl
            (fun acc w =>
              match acc with
              | some r => some r
              | none =>
                let a2 := (var, w) :: a
                if is_consistent cw a2 then perform_backtracking cw d n a2 else none)
            none := rfl

theorem perform_backtracking_foldl_inv {cw : Crossword} {d : Domains} {n : Nat}
    {var : Variable} {a r : Assignment} :
    ∀ (l : List Word) (acc : Option Assignment),
      (l.foldl
        (fun acc w =>
          match acc with
          | some r => some r
          | none =>
            let a2 := (var, w) :: a
            if is_consistent cw a2 then perform_backtracking cw d n a2 else none)
        acc) = some r →
      acc = some r ∨ ∃ w ∈ l, is_consistent cw ((var, w) :: a) = true ∧
        perform_backtracking cw d n ((var, w) :: a) = some r := by
  intro l
  induction l with
  | nil => intro acc h; exact Or.inl h
  | cons w t ih =>
    intro acc h
    rw [List.foldl_cons] at h
    rcases ih _ h with hacc | ⟨w2, hw2, hc2, hb2⟩
    · cases acc with
      | some r0 => exact Or.inl hacc
      | none =>
        simp only at hacc
        split at hacc
        · exact Or.inr ⟨w, List.mem_cons_self _ _, by assumption, hacc⟩
        · cases hacc
    · exact Or.inr ⟨w2, List.mem_cons_of_mem _ hw2, hc2, hb2⟩

theorem perform_backtracking_sound (cw : Crossword) (d : Domains) :
    ∀ (fuel : Nat) (a r : Assignment),
      is_consistent cw a = true →
      (a.map Prod.fst).Nodup →
      (∀ v ∈ a.map Prod.fst, v ∈ cw.variables) →
      perform_backtracking cw d fuel a = some r →
      is_consistent cw r = true ∧ is_assignment_complete cw r = true ∧
      (r.map Prod.fst).Nodup ∧ (∀ v ∈ r.map Prod.fst, v ∈ cw.variables) := by
  intro fuel
  induction fuel with
  | zero => intro a r _ _ _ h; simp [perform_backtracking] at h
  | succ n ih =>
    intro a r hcons hnd hsub h
    rw [perform_backtracking_succ] at h
    by_cases hc : is_assignment_complete cw a = true
    · rw [if_pos hc] at h
      injection h with h
      subst h
      exact ⟨hcons, hc, hnd, hsub⟩
    · rw [if_neg hc] at h
      cases hsel : select_variable cw d a with
      | none => rw [hsel] at h; cases h
      | some var =>
        rw [hsel] at h
        rcases perform_backtracking_foldl_inv _ _ h with hacc | ⟨w, -, hcw, hbw⟩
        · cases hacc
        · obtain ⟨hvmem, hvnone⟩ := select_variable_spec hsel
          refine ih ((var, w) :: a) r hcw ?_ ?_ hbw
          · simp only [List.map_cons, List.nodup_cons]
            exact ⟨alookup_eq_none_iff.mp hvnone, hnd⟩
          · intro v hv
            simp only [List.map_cons, List.mem_cons] at hv
            rcases hv with hv | hv
            · rw [hv]; exact hvmem
            · exact hsub v hv

theorem keys_cover_variables {cw : Crossword} {r : Assignment}
    (hcomp : is_assignment_complete cw r = true)
    (hnd : (r.map Prod.fst).Nodup)
    (hsub : ∀ v ∈ r.map Prod.fst, v ∈ cw.variables) :
    ∀ v ∈ cw.variables, v ∈ r.map Prod.fst := by
  unfold is_assignment_complete at hcomp
  rw [beq_iff_eq] at hcomp
  intro v hv
  have h1 : (r.map Prod.fst).toFinset ⊆ cw.variables.toFinset := by
    intro u hu
    exact List.mem_toFinset.mpr (hsub u (List.mem_toFinset.mp hu))
  have hcard1 : (r.map Prod.fst).toFinset.card = r.length := by
    rw [List.toFinset_card_of_nodup hnd, List.length_map]
  have hcard2 : cw.variables.toFinset.card = cw.variables.length :=
    List.toFinset_card_of_nodup (variables_nodup cw)
  have hEq : (r.map Prod.fst).toFinset = cw.variables.toFinset :=
    Finset.eq_of_subset_of_card_le h1 (by rw [hcard1, hcard2]; omega)
  rw [← List.mem_toFinset, hEq]
  exact List.mem_toFinset.mpr hv

/-! ## Decidability instances for concrete evaluation -/

instance : DecidableEq (Bool × Domains) := instDecidableEqProd

instance : DecidableEq (Option (Bool × Domains)) := Option.instDecidableEq

instance : DecidableEq (Option (Option (Bool × Domains))) := Option.instDecidableEq

theorem getElem?_eq_some_getD {l : List Char} {i : Nat} (h : i < l.length) :
    l[i]? = some (l.getD i 'A') := by
  rw [List.getD_eq_getElem?_getD, List.getElem?_eq_getElem h]
  rfl

/-! ## Concrete test crosswords

`cwC2`: a 3x3 grid whose first row is an ACROSS slot of length 3 and whose
middle column is a DOWN slot of length 3, crossing at the across slot's
index 1 and the down slot's index 0; vocabulary {"ABC"} (unsatisfiable at
the crossing, AC-3 empties a domain).  `cwC3`: the same grid with
vocabulary {"AZA","ZAA","CAA","AXA"}.  `cwC4`: an H-shaped grid with two
DOWN slots and one ACROSS slot through the middle row. -/

def wABC : Word := ['A', 'B', 'C']
def wAZA : Word := ['A', 'Z', 'A']
def wZAA : Word := ['Z', 'A', 'A']
def wCAA : Word := ['C', 'A', 'A']
def wAXA : Word := ['A', 'X', 'A']
def wAAA : Word := ['A', 'A', 'A']
def wCZC : Word := ['C', 'Z', 'C']

def A3c : Variable := ⟨0, 0, Direction.across, 3⟩

def N3c : Variable := ⟨0, 1, Direction.down, 3⟩

def cwC2 : Crossword :=
  ⟨3, 3, [[true, true, true], [false, true, false], [false, true, false]], [wABC]⟩

def d1C2 : Domains := ensure_node_consistency (initial_domains cwC2)

def arcsC2 : List (Variable × Variable) := initial_arcs cwC2 d1C2

/-- The domain state in which `apply_ac3` on `cwC2` stops: the across
slot's domain has been emptied. -/
def d2C2 : Domains := [(A3c, []), (N3c, [wABC])]

def cwC3 : Crossword :=
  ⟨3, 3, [[true, true, true], [false, true, false], [false, true, false]],
   [wAZA, wZAA, wCAA, wAXA]⟩

def d1C3 : Domains := ensure_node_consistency (initial_domains cwC3)

def arcsC3 : List (Variable × Variable) := initial_arcs cwC3 d1C3

/-- The arc-consistent domains `apply_ac3` computes for `cwC3`. -/
def d2C3 : Domains := [(A3c, [wAZA, wZAA, wCAA]), (N3c, [wAZA, wZAA, wAXA])]

/-- The assignment `find_solution cwC3` returns. -/
def asgC3 : Assignment := [(N3c, wZAA), (A3c, wAZA)]

/-- A complete consistent assignment for `cwC3` giving the across slot the
candidate with the smallest least-constraining-value count. -/
def altC3 : Assignment := [(N3c, wAZA), (A3c, wCAA)]

def cwC4 : Crossword :=
  ⟨3, 3, [[true, false, true], [true, true, true], [true, false, true]], [wAAA]⟩

def D0c : Variable := ⟨0, 0, Direction.down, 3⟩

def D2c : Variable := ⟨0, 2, Direction.down, 3⟩

def Acrc : Variable := ⟨1, 0, Direction.across, 3⟩

/-- A domain state on `cwC4`: both DOWN slots have one candidate left, the
ACROSS slot (which has two neighbors) has two. -/
def dC4 : Domains := [(D0c, [wAAA]), (D2c, [wAAA]), (Acrc, [wAAA, wCZC])]

/-- A domain state on `cwC3` separating the source's value-ordering count
from the least-constraining-value count of the spec. -/
def dC5 : Domains := [(A3c, [wAAA, wCZC]), (N3c, [wAAA, wAXA])]

/-! ## Claim theorems -/

/-- C1: For every non-`None` assignment returned by the top-level solve
(`find_solution`), every slot of the puzzle graph is assigned exactly one
word whose length equals the slot's length, no word is assigned to two
different slots, and for every pair of overlapping assigned slots the
letters at the shared-cell index pair agree. -/
theorem C1_solution_validity (cw : Crossword) (r : Assignment)
    (h : find_solution cw = some (some r)) :
    (∀ v ∈ cw.variables, ∃ w, alookup r v = some w ∧ w.length = v.length) ∧
    (∀ v1 v2 w1 w2, v1 ≠ v2 →
      alookup r v1 = some w1 → alookup r v2 = some w2 → w1 ≠ w2) ∧
    (∀ v1 v2 i j w1 w2, cw.overlapPair v1 v2 = some (i, j) →
      alookup r v1 = some w1 → alookup r v2 = some w2 →
      ∃ c, w1[i]? = some c ∧ w2[j]? = some c) := by
  simp only [find_solution] at h
  split at h
  · cases h
  · cases h
  · next ok d2 heq =>
    injection h with h
    have hsound := perform_backtracking_sound cw d2
      (cw.variables.length + 1) [] r (by simp [is_consistent]) (by simp)
      (by simp) h
    obtain ⟨hconsR, hcompR, hndR, hsubR⟩ := hsound
    obtain ⟨hvalsnd, hprops⟩ := is_consistent_props hconsR
    have hcover := keys_cover_variables hcompR hndR hsubR
    refine ⟨?_, ?_, ?_⟩
    · intro v hv
      obtain ⟨w, hw⟩ := alookup_isSome_of_mem_keys (hcover v hv)
      exact ⟨w, hw, (hprops (v, w) (alookup_mem hw)).1⟩
    · intro v1 v2 w1 w2 hne h1 h2
      exact alookup_ne_of_vals_nodup hvalsnd hne h1 h2
    · intro v1 v2 i j w1 w2 hov h1 h2
      have hp1 := hprops (v1, w1) (alookup_mem h1)
      have hagree := hp1.2 v2 (mem_neighbors_of_overlap hov) w2 h2 i j hov
      have hi : i < w1.length := by
        have ha := (overlapPair_lt hov).1
        have hb : w1.length = v1.length := hp1.1
        omega
      have hj : j < w2.length := by
        have ha := (overlapPair_lt hov).2
        have hb : w2.length = v2.length := (hprops (v2, w2) (alookup_mem h2)).1
        omega
      refine ⟨w1.getD i 'A', getElem?_eq_some_getD hi, ?_⟩
      rw [hagree]
      exact getElem?_eq_some_getD hj

theorem C1_witness :
    (∃ w, alookup asgC3 A3c = some w ∧ w.length = A3c.length) ∧
    (∃ c, wAZA[1]? = some c ∧ wZAA[0]? = some c) :=
  ⟨(C1_solution_validity cwC3 asgC3 (by decide)).1 A3c (by decide),
   (C1_solution_validity cwC3 asgC3 (by decide)).2.2 A3c N3c 1 0 wAZA wZAA
     (by decide) (by decide) (by decide)⟩

/-- C2 (code bug evidence): on `cwC2` the AC-3 stage returns `False` (it
emptied the across slot's domain), yet `find_solution` is the unconditional
composition that still runs `perform_backtracking` on the pruned domains —
its value equals the backtracking result rather than an early "no
solution" return; the final answer is `None` only because the emptied
domain makes the search fail. -/
theorem C2_ac3_failure_not_short_circuited :
    apply_ac3 cwC2 (ac3_fuel cwC2 arcsC2 d1C2) arcsC2 d1C2
      = some (some (false, d2C2)) ∧
    find_solution cwC2
      = some (perform_backtracking cwC2 d2C2 (cwC2.variables.length + 1) []) ∧
    find_solution cwC2 = some none :=
  ⟨by decide, by decide, by decide⟩

/-- C3 (code bug evidence): on `cwC3` the arc-consistent domains are
`d2C3`; the value ordering computed by `order_values` for the across slot
puts `CAA` (count 0) first, and a complete consistent solution assigning
`CAA` to the across slot exists — yet `find_solution` returns the
assignment trying `AZA` first, because `perform_backtracking` iterates the
raw domain and never calls `order_values`. -/
theorem C3_backtracking_ignores_order_values :
    apply_ac3 cwC3 (ac3_fuel cwC3 arcsC3 d1C3) arcsC3 d1C3
      = some (some (true, d2C3)) ∧
    order_values cwC3 d2C3 [] A3c = [wCAA, wAZA, wZAA] ∧
    find_solution cwC3 = some (some asgC3) ∧
    alookup asgC3 A3c = some wAZA ∧
    is_consistent cwC3 altC3 = true ∧
    is_assignment_complete cwC3 altC3 = true ∧
    alookup altC3 A3c = some wCAA :=
  ⟨by decide, by decide, by decide, by decide, by decide, by decide, by decide⟩

/-- C4 (code bug evidence): with the domain state `dC4` and the empty
assignment, `select_variable` on `cwC4` returns the ACROSS slot, whose
remaining domain (2 candidates) is strictly larger than the remaining
domain of the unassigned DOWN slot (1 candidate): the degree comparison is
applied without first requiring a domain-size tie. -/
theorem C4_select_variable_violates_mrv :
    select_variable cwC4 dC4 [] = some Acrc ∧
    D0c ∈ cwC4.variables ∧
    alookup ([] : Assignment) D0c = none ∧
    (domGet dC4 D0c).length < (domGet dC4 Acrc).length :=
  ⟨by decide, by decide, by decide, by decide⟩

/-- C5 (code bug evidence): with domains `dC5` on `cwC3` and the empty
assignment, `order_values` for the across slot returns `[CZC, AAA]`,
although `CZC` would eliminate 2 values from the unassigned neighbor's
domain and `AAA` would eliminate 0: the source counts neighbors whose
domain contains the candidate itself instead of counting conflicting
values at the overlap, so the produced order is not ascending in
least-constraining-value counts. -/
theorem C5_order_values_wrong_count :
    order_values cwC3 dC5 [] A3c = [wCZC, wAAA] ∧
    lcv_elimination_count cwC3 dC5 [] A3c wAAA = 0 ∧
    lcv_elimination_count cwC3 dC5 [] A3c wCZC = 2 ∧
    cwC3.overlapPair A3c N3c = some (1, 0) ∧
    wAAA ∈ domGet dC5 N3c ∧ wCZC ∉ domGet dC5 N3c :=
  ⟨by decide, by decide, by decide, by decide, by decide, by decide⟩

/-- C6: whenever `apply_ac3` run on the default worklist (all neighbor
arcs, as built by the top-level solve) returns success (`True`), the
resulting domains are arc-consistent: for every ordered pair of
neighboring slots with overlap index pair `(i, j)`, every word remaining
for `x` has at least one word remaining for `y` agreeing at the shared
cell. -/
theorem C6_ac3_postcondition (cw : Crossword) (fuel : Nat) (d dr : Domains)
    (hk : d.map Prod.fst = cw.variables)
    (h : apply_ac3 cw fuel (initial_arcs cw d) d = some (some (true, dr))) :
    ∀ x y i j, cw.overlapPair x y = some (i, j) →
      ∀ wx ∈ domGet dr x, ∃ wy ∈ domGet dr y, wx.getD i 'A' = wy.getD j 'A' := by
  intro x y i j hov wx hwx
  have hinv : ∀ a b, (cw.overlapPair a b).isSome = true →
      (a, b) ∈ initial_arcs cw d ∨ arcCons cw d a b := by
    intro a b hab
    obtain ⟨p, hp⟩ := Option.isSome_iff_exists.mp hab
    obtain ⟨ia, jb⟩ := p
    exact Or.inl (initial_arcs_complete hk a b ia jb hp)
  exact apply_ac3_invariant fuel _ d dr hinv h x y (by rw [hov]; rfl) i j hov wx hwx

theorem C6_witness :
    ∃ wy ∈ domGet d2C3 N3c, wAZA.getD 1 'A' = wy.getD 0 'A' :=
  C6_ac3_postcondition cwC3 (ac3_fuel cwC3 arcsC3 d1C3) d1C3 d2C3 (by decide)
    (by decide) A3c N3c 1 0 (by decide) wAZA (by decide)

/-- C7: the discovered slot set consists exactly of the maximal fillable
runs of length at least 2: a DOWN slot exists for `(i, j)` iff the cell is
fillable, the cell above is out of range or blocked, and the maximal
downward run has length greater than one (symmetrically ACROSS), and no
duplicate slots are produced. -/
theorem C7_slot_discovery (cw : Crossword) :
    (∀ v, v ∈ cw.variables ↔ downSlotSpec cw v ∨ acrossSlotSpec cw v) ∧
    cw.variables.Nodup :=
  ⟨fun _ => mem_variables_iff, variables_nodup cw⟩

theorem C7_witness :
    (A3c ∈ cwC3.variables ↔ downSlotSpec cwC3 A3c ∨ acrossSlotSpec cwC3 A3c) ∧
    cwC3.variables.Nodup :=
  ⟨(C7_slot_discovery cwC3).1 A3c, (C7_slot_discovery cwC3).2⟩

/-- C8: the overlap table is symmetric: `overlap(A, B)` is null iff
`overlap(B, A)` is null, and when `overlap(A, B) = (i, j)` then
`overlap(B, A) = (j, i)` and the two index pairs address the same physical
cell in the two slots' cell sequences. -/
theorem C8_overlap_symmetry (cw : Crossword) (v1 v2 : Variable) :
    (cw.overlapPair v1 v2 = none ↔ cw.overlapPair v2 v1 = none) ∧
    (∀ i j, cw.overlapPair v1 v2 = some (i, j) →
      cw.overlapPair v2 v1 = some (j, i) ∧
      ∃ c, v1.cells[i]? = some c ∧ v2.cells[j]? = some c) := by
  constructor
  · constructor
    · intro h1
      by_contra h2
      have hs := Option.ne_none_iff_isSome.mp h2
      have hs2 := overlapPair_isSome_symm hs
      rw [Option.isSome_iff_ne_none] at hs2
      exact hs2 h1
    · intro h1
      by_contra h2
      have hs := Option.ne_none_iff_isSome.mp h2
      have hs2 := overlapPair_isSome_symm hs
      rw [Option.isSome_iff_ne_none] at hs2
      exact hs2 h1
  · intro i j h
    exact ⟨overlapPair_symm h, overlapPair_shared_cell h⟩

theorem C8_witness :
    cwC3.overlapPair N3c A3c = some (0, 1) ∧
    (∃ c, A3c.cells[1]? = some c ∧ N3c.cells[0]? = some c) := by
  have h := (C8_overlap_symmetry cwC3 A3c N3c).2 1 0 (by decide)
  exact ⟨h.1, h.2⟩

/-- C9: `apply_ac3` terminates on every input — the computed fuel bound
`ac3_fuel` always suffices; every revision either strictly shrinks the
total domain size or removes nothing and leaves the domains unchanged (and
by the code's shape a non-revision enqueues nothing); success means no
domain was emptied during the run (a domain empty at the end was already
empty at the start), and failure means some nonempty domain was emptied. -/
theorem C9_ac3_termination (cw : Crossword) (arcs : List (Variable × Variable))
    (d : Domains) :
    (apply_ac3 cw (ac3_fuel cw arcs d) arcs d).isSome = true ∧
    (∀ x y r d2, revise_domains cw d x y = some (r, d2) →
      (r = true ∧ totalSize d2 < totalSize d) ∨ (r = false ∧ d2 = d)) ∧
    (∀ fuel dr, apply_ac3 cw fuel arcs d = some (some (true, dr)) →
      ∀ v, domGet dr v = [] → domGet d v = []) ∧
    (∀ fuel dr, apply_ac3 cw fuel arcs d = some (some (false, dr)) →
      ∃ v, domGet d v ≠ [] ∧ domGet dr v = []) := by
  refine ⟨?_, ?_, ?_, ?_⟩
  · exact apply_ac3_isSome cw _ _ _ (by unfold ac3_fuel; omega)
  · intro x y r d2 hrev
    cases r with
    | true => exact Or.inl ⟨rfl, revise_domains_true_lt hrev⟩
    | false => exact Or.inr ⟨rfl, revise_domains_false_eq hrev⟩
  · intro fuel dr hr
    exact apply_ac3_true_no_emptied fuel arcs d dr hr
  · intro fuel dr hr
    exact apply_ac3_false_emptied fuel arcs d dr hr

theorem C9_witness :
    (apply_ac3 cwC2 (ac3_fuel cwC2 arcsC2 d1C2) arcsC2 d1C2).isSome = true ∧
    (∃ v, domGet d1C2 v ≠ [] ∧ domGet d2C2 v = []) := by
  have h := C9_ac3_termination cwC2 arcsC2 d1C2
  exact ⟨h.1, h.2.2.2 (ac3_fuel cwC2 arcsC2 d1C2) d2C2 (by decide)⟩

/-- C10: under the top-level solve's call sequence (node consistency, then
AC-3 on the default neighbor-pair worklist), the AC-3 stage never hits a
Python runtime fault — every popped arc has a non-`None` overlap entry and
every character index is within the bounds of the words compared — and it
never runs out of the computed fuel, so `find_solution` always returns an
answer (the outer `none`, standing for a fault, is unreachable). -/
theorem C10_no_runtime_fault (cw : Crossword) :
    (∃ ok d2, apply_ac3 cw
        (ac3_fuel cw (initial_arcs cw (ensure_node_consistency (initial_domains cw)))
          (ensure_node_consistency (initial_domains cw)))
        (initial_arcs cw (ensure_node_consistency (initial_domains cw)))
        (ensure_node_consistency (initial_domains cw)) = some (some (ok, d2))) ∧
    find_solution cw ≠ none := by
  have hsome := apply_ac3_isSome cw
    (ac3_fuel cw (initial_arcs cw (ensure_node_consistency (initial_domains cw)))
      (ensure_node_consistency (initial_domains cw)))
    (initial_arcs cw (ensure_node_consistency (initial_domains cw)))
    (ensure_node_consistency (initial_domains cw)) (by unfold ac3_fuel; omega)
  have hnf := apply_ac3_ne_fault
    (ac3_fuel cw (initial_arcs cw (ensure_node_consistency (initial_domains cw)))
      (ensure_node_consistency (initial_domains cw)))
    (initial_arcs cw (ensure_node_consistency (initial_domains cw)))
    (ensure_node_consistency (initial_domains cw))
    initial_arcs_overlap (ensure_node_consistency_len _)
  cases hres : apply_ac3 cw
      (ac3_fuel cw (initial_arcs cw (ensure_node_consistency (initial_domains cw)))
        (ensure_node_consistency (initial_domains cw)))
      (initial_arcs cw (ensure_node_consistency (initial_domains cw)))
      (ensure_node_consistency (initial_domains cw)) with
  | none => rw [hres] at hsome; cases hsome
  | some o =>
    cases o with
    | none => exact absurd hres hnf
    | some p =>
      obtain ⟨ok, d2⟩ := p
      refine ⟨⟨ok, d2, rfl⟩, ?_⟩
      simp only [find_solution]
      rw [hres]
      simp

theorem C10_witness :
    (∃ ok d2, apply_ac3 cwC3
        (ac3_fuel cwC3 (initial_arcs cwC3 (ensure_node_consistency (initial_domains cwC3)))
          (ensure_node_consistency (initial_domains cwC3)))
        (initial_arcs cwC3 (ensure_node_consistency (initial_domains cwC3)))
        (ensure_node_consistency (initial_domains cwC3)) = some (some (ok, d2))) ∧
    find_solution cwC3 ≠ none :=
  C10_no_runtime_fault cwC3
